import Mathlib

/-!
Verification of the message-rendering, diagram-viewport and streaming
subsystems of the Backend-AI-Mentor frontend.

The development shallowly embeds the relevant code:

* `src/components/ChatMessage.tsx` — `FormattedContent` (fenced-block
  segmentation and per-segment rendering), `MermaidDiagram`
  (`isRenderSuccess`, inline error panel), `DiagramModal`
  (`handleWheel` zoom math, `throttle`).
* `src/components/ChatInput.tsx` — `performSubmit`.
* `src/components/ChatHistory.tsx` — scroll-intent / autoscroll policy.
* `src/App.tsx` — `fileToPart`, `handleSendMessage` streaming reconciler.

Message text is modelled as `List Char`; numeric viewport quantities as `ℚ`.
-/

namespace AIMentor

/-! ### Characters and JS string helpers -/

/-- The backtick character, written via its code point. -/
def tick : Char := Char.ofNat 96

/-- The three-character fence delimiter of `FormattedContent`. -/
def ttt : List Char := [tick, tick, tick]

/-- Whitespace as recognised by JavaScript `String.prototype.trim`
(restricted to the ASCII whitespace characters, which are the only ones the
renderer's inputs contain). -/
def isWs (c : Char) : Bool :=
  c = ' ' || c = '\t' || c = '\n' || c = '\r' || c = Char.ofNat 11 || c = Char.ofNat 12

/-- JS `String.prototype.trim`: drop whitespace from both ends. -/
def trim (cs : List Char) : List Char :=
  ((cs.dropWhile isWs).reverse.dropWhile isWs).reverse

/-- The truthiness test of `parts.filter(part => part?.trim())` in
`FormattedContent`: a part is kept iff its trim is nonempty. -/
def keepPart (cs : List Char) : Bool := !(trim cs).isEmpty

/-- JS regex `\w`: ASCII letters, digits and underscore. -/
def isWordChar (c : Char) : Bool := c.isAlphanum || c = '_'

/-- JS `String.prototype.toLowerCase` on the language tags that occur here. -/
def lowerRun (cs : List Char) : List Char := cs.map Char.toLower

/-! ### Segmentation (`FormattedContent`, ChatMessage.tsx lines 424-458)

`content.split(/(```[\s\S]*?```)/g)` splits the message at each complete,
lazily-matched fence and keeps the fence itself as a part.  We model the
regex engine's leftmost-match scan: `splitTicks` finds the leftmost
occurrence of the three-backtick delimiter, `findFence` a leftmost complete
fence (opening delimiter plus the earliest closing delimiter after it). -/

/-- Split a character list at the leftmost occurrence of three consecutive
backticks; `some (pre, rest)` means the input is `pre ++ ttt ++ rest` and
`pre` contains no such occurrence. -/
def splitTicks : List Char → Option (List Char × List Char)
  | [] => none
  | c :: cs =>
    if c = tick && cs.take 2 = [tick, tick] then
      some ([], cs.drop 2)
    else
      match splitTicks cs with
      | some (p, rest) => some (c :: p, rest)
      | none => none

/-- Whether a character list contains three consecutive backticks. -/
def hasTT : List Char → Bool
  | c1 :: c2 :: c3 :: rest => (c1 = tick && c2 = tick && c3 = tick) || hasTT (c2 :: c3 :: rest)
  | _ => false

theorem splitTicks_some (cs pre rest : List Char) (h : splitTicks cs = some (pre, rest)) :
    cs = pre ++ ttt ++ rest := by
  induction cs generalizing pre with
  | nil => simp [splitTicks] at h
  | cons c cs ih =>
    rw [splitTicks] at h
    by_cases hc : (c = tick && cs.take 2 = [tick, tick]) = true
    · rw [if_pos hc] at h
      obtain ⟨hc1, hc2⟩ := Bool.and_eq_true_iff.mp hc
      have hc1' : c = tick := by simpa using hc1
      have hc2' : cs.take 2 = [tick, tick] := by simpa using hc2
      obtain ⟨h1, h2⟩ := Prod.mk.injEq _ _ _ _ ▸ Option.some_inj.mp h
      subst h1
      subst hc1'
      have hcs : cs = tick :: tick :: cs.drop 2 := by
        conv_lhs => rw [← List.take_append_drop 2 cs]
        rw [hc2']
        rfl
      rw [← h2, hcs]
      simp [ttt]
    · rw [if_neg hc] at h
      cases hsp : splitTicks cs with
      | none => rw [hsp] at h; simp at h
      | some pr =>
        obtain ⟨p, s⟩ := pr
        rw [hsp] at h
        simp only [Option.some_inj] at h
        obtain ⟨h1, h2⟩ := Prod.mk.injEq _ _ _ _ ▸ h
        subst h2
        rw [← h1]
        simpa using ih p (by rw [hsp])

/-- Find the leftmost complete fence: `some (pre, fence, rest)` decomposes
the input as `pre ++ fence ++ rest` where `fence` is delimited by the
leftmost pair of fence delimiters (the lazy `[\s\S]*?` of the split regex). -/
def findFence (cs : List Char) : Option (List Char × List Char × List Char) :=
  match splitTicks cs with
  | none => none
  | some (pre, tail) =>
    match splitTicks tail with
    | none => none
    | some (inner, rest) => some (pre, ttt ++ inner ++ ttt, rest)

theorem findFence_some (cs pre fence rest : List Char)
    (h : findFence cs = some (pre, fence, rest)) :
    cs = pre ++ fence ++ rest ∧ rest.length < cs.length := by
  unfold findFence at h
  split at h
  · simp at h
  · rename_i p1 t1 h1
    split at h
    · simp at h
    · rename_i p2 t2 h2
      simp only [Option.some_inj, Prod.mk.injEq] at h
      obtain ⟨e1, e2, e3⟩ := h
      have hc1 := splitTicks_some cs p1 t1 h1
      have hc2 := splitTicks_some t1 p2 t2 h2
      subst e1 e3
      constructor
      · rw [hc1, hc2, ← e2]
        simp [ttt]
      · rw [hc1, hc2]
        simp [ttt]
        omega

/-- The part list produced by `content.split(/(```[\s\S]*?```)/g)`:
alternating non-fence and fence parts, in source order. -/
def splitFences (cs : List Char) : List (List Char) :=
  match h : findFence cs with
  | none => [cs]
  | some (pre, fence, rest) => pre :: fence :: splitFences rest
termination_by cs.length
decreasing_by exact (findFence_some cs pre fence rest h).2

/-- The per-part regex `/^```(\w*)\n?([\s\S]*?)```$/` of `FormattedContent`:
on success returns the captured language tag and code body. -/
def matchFence (cs : List Char) : Option (List Char × List Char) :=
  if cs.take 3 = ttt then
    let inner := cs.drop 3
    let lang := inner.takeWhile isWordChar
    let afterLang := inner.dropWhile isWordChar
    let body := if afterLang.take 1 = ['\n'] then afterLang.drop 1 else afterLang
    if 3 ≤ body.length && body.drop (body.length - 3) = ttt then
      some (lang, body.take (body.length - 3))
    else none
  else none

/-- One classified span of a message (`Prose` / `Code` / `Diagram`), carrying
the original source span it was classified from. -/
inductive Segment where
  | prose : (span : List Char) → Segment
  | code : (language : List Char) → (text : List Char) → (span : List Char) → Segment
  | diagram : (chart : List Char) → (span : List Char) → Segment
deriving DecidableEq

/-- The original span of text a segment was produced from. -/
def Segment.span : Segment → List Char
  | .prose sp => sp
  | .code _ _ sp => sp
  | .diagram _ sp => sp

/-- The diagram language tag recognised by `FormattedContent`. -/
def mermaidTag : List Char := "mermaid".toList

/-- Classification of one split part, as in `FormattedContent`: a part
matching the fence regex with tag case-insensitively equal to `mermaid`
becomes a `Diagram` (chart = trimmed body), any other matching part a `Code`
block (trimmed body), and everything else `Prose`. -/
def classifyPart (part : List Char) : Segment :=
  match matchFence part with
  | some (lang, body) =>
    if lowerRun lang = mermaidTag then Segment.diagram (trim body) part
    else Segment.code lang (trim body) part
  | none => Segment.prose part

/-- The full segmentation pipeline of `FormattedContent`: split at complete
fences, drop whitespace-only parts, classify each remaining part. -/
def segments (cs : List Char) : List Segment :=
  ((splitFences cs).filter keepPart).map classifyPart

theorem span_classifyPart (p : List Char) : (classifyPart p).span = p := by
  unfold classifyPart
  cases hm : matchFence p with
  | none => simp [Segment.span]
  | some pr =>
    obtain ⟨lang, body⟩ := pr
    by_cases h : lowerRun lang = mermaidTag <;> simp [h, Segment.span]

theorem splitFences_flatten (cs : List Char) : (splitFences cs).flatten = cs := by
  generalize hn : cs.length = n
  induction n using Nat.strong_induction_on generalizing cs with
  | _ n ih =>
    subst hn
    rw [splitFences]
    split
    · simp
    · rename_i pre fence rest h
      have hd := findFence_some cs pre fence rest h
      have ihr := ih rest.length hd.2 rest rfl
      simp only [List.flatten_cons, ihr, hd.1, List.append_assoc]

/-- C1: concatenating the original spans of the segments, in order, yields
exactly the original message text except that whitespace-only parts are
dropped: the underlying split decomposes the text without loss or
duplication, and segmentation keeps precisely its non-whitespace-only parts
(spans unchanged). -/
theorem segmentation_reconstructs (cs : List Char) :
    (splitFences cs).flatten = cs ∧
    (segments cs).map Segment.span = (splitFences cs).filter keepPart := by
  constructor
  · exact splitFences_flatten cs
  · unfold segments
    rw [List.map_map]
    have : ∀ l : List (List Char), l.map (Segment.span ∘ classifyPart) = l := by
      intro l
      induction l with
      | nil => rfl
      | cons x xs ih => simp [Function.comp, span_classifyPart, ih]
    exact this _

/-! ### Lemmas about fence scanning, used to settle the classification claim -/

theorem hasTT_cons_ne (c : Char) (l : List Char) (hc : c ≠ tick) :
    hasTT (c :: l) = hasTT l := by
  match l with
  | [] => rfl
  | [d] => rfl
  | d :: e :: r =>
    rw [hasTT]
    simp [hc]

theorem hasTT_tail (c : Char) (l : List Char) (h : hasTT (c :: l) = false) :
    hasTT l = false := by
  match l with
  | [] => rfl
  | [d] => rfl
  | d :: e :: r =>
    rw [hasTT] at h
    exact (Bool.or_eq_false_iff.mp h).2

theorem hasTT_append_no_tick (a b : List Char) (h : ∀ c ∈ a, c ≠ tick) :
    hasTT (a ++ b) = hasTT b := by
  induction a with
  | nil => rfl
  | cons c a ih =>
    have hc : c ≠ tick := h c (by simp)
    rw [List.cons_append, hasTT_cons_ne c (a ++ b) hc]
    exact ih (fun d hd => h d (by simp [hd]))

theorem splitTicks_none (cs : List Char) (h : hasTT cs = false) : splitTicks cs = none := by
  induction cs with
  | nil => rfl
  | cons c cs ih =>
    rw [splitTicks]
    have hcond : (c = tick && cs.take 2 = [tick, tick]) = false := by
      by_contra hne
      have hc := Bool.and_eq_true_iff.mp (Bool.of_not_eq_false hne)
      have hc1 : c = tick := by simpa using hc.1
      have hc2 : cs.take 2 = [tick, tick] := by simpa using hc.2
      have hcs : cs = tick :: tick :: cs.drop 2 := by
        conv_lhs => rw [← List.take_append_drop 2 cs]
        rw [hc2]
        rfl
      rw [hc1, hcs, hasTT] at h
      simp at h
    rw [hcond]
    simp only [Bool.false_eq_true, if_false]
    rw [ih (hasTT_tail c cs h)]

theorem splitTicks_append (a b : List Char) (ha : hasTT a = false)
    (hlast : a.getLast? ≠ some tick) :
    splitTicks (a ++ ttt ++ b) = some (a, b) := by
  induction a with
  | nil =>
    have hb : ([] : List Char) ++ ttt ++ b = tick :: tick :: tick :: b := by simp [ttt]
    rw [hb, splitTicks]
    simp
  | cons c a ih =>
    rw [List.cons_append, List.cons_append, splitTicks]
    have hcond : (c = tick && (a ++ ttt ++ b).take 2 = [tick, tick]) = false := by
      by_contra hne
      have hc := Bool.and_eq_true_iff.mp (Bool.of_not_eq_false hne)
      have hc1 : c = tick := by simpa using hc.1
      have hc2 : (a ++ ttt ++ b).take 2 = [tick, tick] := by simpa using hc.2
      match a, hlast with
      | [], hlast => exact hlast (by simp [hc1])
      | [d], hlast =>
        have : d = tick := by
          simpa [ttt] using congrArg (fun l => l.head?) hc2
        exact hlast (by simp [this])
      | d :: e :: r, hlast =>
        have hde : d = tick ∧ e = tick := by
          have := hc2
          simp [List.take] at this
          exact this
        rw [hc1, hde.1, hde.2, hasTT] at ha
        simp at ha
    rw [hcond]
    simp only [Bool.false_eq_true, if_false]
    have ha' : hasTT a = false := hasTT_tail c a ha
    have hlast' : a.getLast? ≠ some tick := by
      match a with
      | [] => simp
      | d :: r =>
        rw [List.getLast?_cons_cons] at hlast
        exact hlast
    rw [ih ha' hlast']

theorem takeWhile_append_of_all (p : Char → Bool) (a : List Char) (x : Char) (b : List Char)
    (ha : ∀ c ∈ a, p c = true) (hx : p x = false) :
    (a ++ x :: b).takeWhile p = a ∧ (a ++ x :: b).dropWhile p = x :: b := by
  induction a with
  | nil => simp [List.takeWhile_cons, List.dropWhile_cons, hx]
  | cons c a ih =>
    have hc : p c = true := ha c (by simp)
    have ih' := ih (fun d hd => ha d (by simp [hd]))
    simp [List.takeWhile_cons, List.dropWhile_cons, hc, ih'.1, ih'.2]

/-- The canonical complete fence with language tag `tag` and inner text
`body`, as a single split part. -/
def fencePart (tag body : List Char) : List Char := ttt ++ tag ++ ['\n'] ++ body ++ ttt

theorem matchFence_fencePart (tag body : List Char) (htag : ∀ c ∈ tag, isWordChar c = true) :
    matchFence (fencePart tag body) = some (tag, body) := by
  unfold matchFence fencePart
  have h3 : ((ttt ++ tag ++ ['\n'] ++ body ++ ttt).take 3) = ttt := by
    have : ttt ++ tag ++ ['\n'] ++ body ++ ttt = ttt ++ (tag ++ ['\n'] ++ body ++ ttt) := by
      simp [List.append_assoc]
    rw [this]
    rw [show (3 : ℕ) = ttt.length from rfl]
    exact List.take_left ttt _
  rw [if_pos h3]
  have hdrop : ((ttt ++ tag ++ ['\n'] ++ body ++ ttt).drop 3) = tag ++ '\n' :: (body ++ ttt) := by
    have : ttt ++ tag ++ ['\n'] ++ body ++ ttt = ttt ++ (tag ++ '\n' :: (body ++ ttt)) := by
      simp [List.append_assoc]
    rw [this]
    rw [show (3 : ℕ) = ttt.length from rfl]
    exact List.drop_left ttt _
  have hnl : isWordChar '\n' = false := by decide
  have htw := takeWhile_append_of_all isWordChar tag '\n' (body ++ ttt) htag hnl
  rw [hdrop]
  simp only [htw.1, htw.2]
  have htk : (('\n' :: (body ++ ttt)).take 1) = ['\n'] := by simp
  rw [if_pos htk]
  simp only [List.drop_one, List.tail_cons]
  have hlen : (body ++ ttt).length - 3 = body.length := by simp [ttt]
  have hge : (3 ≤ (body ++ ttt).length) := by simp [ttt]
  have hdr : (body ++ ttt).drop body.length = ttt := List.drop_left body ttt
  have htk2 : (body ++ ttt).take body.length = body := List.take_left body ttt
  rw [hlen, hdr, htk2]
  have h3le : 3 ≤ body.length + ttt.length := by simp [ttt]
  simp [h3le]

theorem trim_nil_all_ws (cs : List Char) (h : trim cs = []) : ∀ d ∈ cs, isWs d = true := by
  unfold trim at h
  have h1 : (cs.dropWhile isWs).reverse.dropWhile isWs = [] := by
    have := congrArg List.reverse h
    simpa using this
  have h2 : ∀ d ∈ (cs.dropWhile isWs).reverse, isWs d = true := by
    intro d hd
    exact List.dropWhile_eq_nil_iff.mp h1 d hd
  intro d hd
  rw [← List.takeWhile_append_dropWhile (p := isWs) (l := cs)] at hd
  rcases List.mem_append.mp hd with hd1 | hd2
  · exact List.mem_takeWhile_imp hd1
  · exact h2 d (List.mem_reverse.mpr hd2)

theorem keepPart_of_mem (cs : List Char) (c : Char) (hc : c ∈ cs) (hw : isWs c = false) :
    keepPart cs = true := by
  unfold keepPart
  rcases htr : trim cs with _ | ⟨d, l⟩
  · have := trim_nil_all_ws cs htr c hc
    rw [hw] at this
    exact absurd this Bool.false_ne_true
  · simp

theorem keepPart_nil : keepPart [] = false := rfl

theorem take3_ne_of_hasTT (cs : List Char) (h : hasTT cs = false) : cs.take 3 ≠ ttt := by
  match cs with
  | [] => simp [ttt]
  | [a] => simp [ttt]
  | [a, b] =>
    intro hc
    have := congrArg List.length hc
    simp [ttt] at this
  | a :: b :: c :: r =>
    intro hc
    have : a = tick ∧ b = tick ∧ c = tick := by
      have h3 : (a :: b :: c :: r).take 3 = [a, b, c] := rfl
      rw [h3, ttt] at hc
      simpa using hc
    rw [this.1, this.2.1, this.2.2, hasTT] at h
    simp at h

theorem matchFence_none_of_take3 (cs : List Char) (h : cs.take 3 ≠ ttt) :
    matchFence cs = none := by
  unfold matchFence
  rw [if_neg h]

theorem take3_append_ne (pre tail : List Char) (hpre : hasTT pre = false)
    (hpl : pre.getLast? ≠ some tick) (hne : pre ≠ []) :
    (pre ++ ttt ++ tail).take 3 ≠ ttt := by
  match pre, hpl with
  | [a], hpl =>
    intro hc
    have ha : a = tick := by
      have : ([a] ++ ttt ++ tail).take 3 = [a, tick, tick] := by simp [ttt]
      rw [this, ttt] at hc
      simpa using hc
    exact hpl (by simp [ha])
  | [a, b], hpl =>
    intro hc
    have hb : b = tick := by
      have : ([a, b] ++ ttt ++ tail).take 3 = [a, b, tick] := by simp [ttt]
      rw [this, ttt] at hc
      have h2 := hc
      simp at h2
      exact h2.2
    exact hpl (by simp [hb])
  | a :: b :: c :: r, hpl =>
    intro hc
    have h3 : ((a :: b :: c :: r) ++ ttt ++ tail).take 3 = [a, b, c] := rfl
    rw [h3, ttt] at hc
    have habc : a = tick ∧ b = tick ∧ c = tick := by simpa using hc
    rw [habc.1, habc.2.1, habc.2.2, hasTT] at hpre
    simp at hpre

theorem findFence_none_of_hasTT (cs : List Char) (h : hasTT cs = false) :
    findFence cs = none := by
  unfold findFence
  rw [splitTicks_none cs h]

theorem findFence_eq_of (cs pre tail inner rest : List Char)
    (h1 : splitTicks cs = some (pre, tail))
    (h2 : splitTicks tail = some (inner, rest)) :
    findFence cs = some (pre, ttt ++ inner ++ ttt, rest) := by
  unfold findFence
  rw [h1]
  simp only [h2]

theorem findFence_none_open (cs pre tail : List Char)
    (h1 : splitTicks cs = some (pre, tail))
    (h2 : splitTicks tail = none) :
    findFence cs = none := by
  unfold findFence
  rw [h1]
  simp only [h2]

theorem no_tick_of_word (tag : List Char) (htag : ∀ c ∈ tag, isWordChar c = true) :
    ∀ c ∈ tag, c ≠ tick := by
  intro c hc he
  have := htag c hc
  rw [he] at this
  exact absurd this (by decide)

theorem splitFences_single_fence (pre tag body rest : List Char)
    (hpre : hasTT pre = false) (hpl : pre.getLast? ≠ some tick)
    (htag : ∀ c ∈ tag, isWordChar c = true)
    (hbody : hasTT body = false) (hbl : body.getLast? ≠ some tick)
    (hrest : hasTT rest = false) :
    splitFences (pre ++ fencePart tag body ++ rest) = [pre, fencePart tag body, rest] := by
  set inner := tag ++ ['\n'] ++ body with hinner
  have hasm : pre ++ fencePart tag body ++ rest = pre ++ ttt ++ (inner ++ ttt ++ rest) := by
    simp [fencePart, hinner, List.append_assoc]
  have hst1 : splitTicks (pre ++ fencePart tag body ++ rest) = some (pre, inner ++ ttt ++ rest) := by
    rw [hasm]
    exact splitTicks_append pre _ hpre hpl
  have hinner_tt : hasTT inner = false := by
    have h1 : inner = tag ++ ('\n' :: body) := by simp [hinner]
    rw [h1, hasTT_append_no_tick tag _ (no_tick_of_word tag htag),
      hasTT_cons_ne '\n' body (by decide)]
    exact hbody
  have hinner_last : inner.getLast? ≠ some tick := by
    rcases body with _ | ⟨b0, bs⟩
    · have : inner = tag ++ ['\n'] := by simp [hinner]
      rw [this, List.getLast?_concat]
      intro hcc
      have : '\n' = tick := by simpa using hcc
      exact absurd this (by decide)
    · have : inner.getLast? = (b0 :: bs).getLast? := by
        rw [hinner]
        rw [List.append_assoc]
        exact List.getLast?_append_of_ne_nil tag (by simp)
      rw [this]
      exact hbl
  have hst2 : splitTicks (inner ++ ttt ++ rest) = some (inner, rest) :=
    splitTicks_append inner rest hinner_tt hinner_last
  have hff : findFence (pre ++ fencePart tag body ++ rest) =
      some (pre, fencePart tag body, rest) := by
    have := findFence_eq_of _ pre (inner ++ ttt ++ rest) inner rest hst1 hst2
    rw [this]
    have hfp : ttt ++ inner ++ ttt = fencePart tag body := by
      simp [fencePart, hinner, List.append_assoc]
    rw [hfp]
  rw [splitFences]
  split
  · rename_i hnone
    rw [hff] at hnone
    simp at hnone
  · rename_i p f r hsome
    rw [hff] at hsome
    simp only [Option.some_inj, Prod.mk.injEq] at hsome
    obtain ⟨e1, e2, e3⟩ := hsome
    subst e1 e2 e3
    rw [splitFences]
    split
    · rfl
    · rename_i p2 f2 r2 hsome2
      rw [findFence_none_of_hasTT rest hrest] at hsome2
      simp at hsome2

/-- C3: a complete fence whose tag case-insensitively equals `mermaid`
yields a Diagram segment; a complete fence with any other tag (including
the empty tag) yields a Code segment; surrounding text stays Prose; and a
message whose fence never closes is rendered entirely as Prose. -/
theorem fence_classification (pre tag body rest tail : List Char)
    (hpre : hasTT pre = false) (hpl : pre.getLast? ≠ some tick) (hpk : keepPart pre = true)
    (htag : ∀ c ∈ tag, isWordChar c = true)
    (hbody : hasTT body = false) (hbl : body.getLast? ≠ some tick)
    (hrest : hasTT rest = false) (hrk : keepPart rest = true)
    (htail : hasTT tail = false) :
    segments (pre ++ fencePart tag body ++ rest) =
      [Segment.prose pre,
       if lowerRun tag = mermaidTag then Segment.diagram (trim body) (fencePart tag body)
       else Segment.code tag (trim body) (fencePart tag body),
       Segment.prose rest] ∧
    segments (pre ++ ttt ++ tail) = [Segment.prose (pre ++ ttt ++ tail)] := by
  have hpne : pre ≠ [] := by
    intro he
    rw [he, keepPart_nil] at hpk
    exact Bool.false_ne_true hpk
  constructor
  · unfold segments
    rw [splitFences_single_fence pre tag body rest hpre hpl htag hbody hbl hrest]
    have hkf : keepPart (fencePart tag body) = true :=
      keepPart_of_mem _ tick (by simp [fencePart, ttt]) (by decide)
    have hcpre : classifyPart pre = Segment.prose pre := by
      unfold classifyPart
      rw [matchFence_none_of_take3 pre (take3_ne_of_hasTT pre hpre)]
    have hcrest : classifyPart rest = Segment.prose rest := by
      unfold classifyPart
      rw [matchFence_none_of_take3 rest (take3_ne_of_hasTT rest hrest)]
    have hcf : classifyPart (fencePart tag body) =
        if lowerRun tag = mermaidTag then Segment.diagram (trim body) (fencePart tag body)
        else Segment.code tag (trim body) (fencePart tag body) := by
      unfold classifyPart
      rw [matchFence_fencePart tag body htag]
    simp [List.filter_cons, hpk, hkf, hrk, hcpre, hcrest, hcf]
  · have hst : splitTicks (pre ++ ttt ++ tail) = some (pre, tail) :=
      splitTicks_append pre tail hpre hpl
    have hff : findFence (pre ++ ttt ++ tail) = none :=
      findFence_none_open _ pre tail hst (splitTicks_none tail htail)
    have hsf : splitFences (pre ++ ttt ++ tail) = [pre ++ ttt ++ tail] := by
      rw [splitFences]
      split
      · rfl
      · rename_i p f r hsome
        rw [hff] at hsome
        simp at hsome
    unfold segments
    rw [hsf]
    have hk : keepPart (pre ++ ttt ++ tail) = true :=
      keepPart_of_mem _ tick (by simp [ttt]) (by decide)
    have hcl : classifyPart (pre ++ ttt ++ tail) = Segment.prose (pre ++ ttt ++ tail) := by
      unfold classifyPart
      rw [matchFence_none_of_take3 _ (take3_append_ne pre tail hpre hpl hpne)]
    simp [List.filter_cons, ← List.append_assoc, hk, hcl]

/-- Witness for `fence_classification` at a concrete message with a mermaid
fence, and at a concrete unterminated message. -/
theorem fence_classification_witness :
    segments ("Intro text".toList ++ fencePart "mermaid".toList "graph TD".toList ++ "after".toList) =
      [Segment.prose "Intro text".toList,
       if lowerRun "mermaid".toList = mermaidTag then
         Segment.diagram (trim "graph TD".toList) (fencePart "mermaid".toList "graph TD".toList)
       else Segment.code "mermaid".toList (trim "graph TD".toList)
         (fencePart "mermaid".toList "graph TD".toList),
       Segment.prose "after".toList] ∧
    segments ("Intro text".toList ++ ttt ++ " js still open".toList) =
      [Segment.prose ("Intro text".toList ++ ttt ++ " js still open".toList)] :=
  fence_classification "Intro text".toList "mermaid".toList "graph TD".toList
    "after".toList " js still open".toList
    (by decide) (by decide) (by decide) (by decide) (by decide) (by decide)
    (by decide) (by decide) (by decide)

/-! ### Messages and the streaming reconciler (`App.tsx`)

`handleSendMessage` appends the user message, then an empty placeholder
model message, and for each transport delta replaces the trailing message
with one holding the accumulated text (`newMessages[newMessages.length - 1]
= { role: MODEL, content: modelResponse }`). -/

/-- `MessageRole` from types.ts. -/
inductive MessageRole where
  | user
  | model
deriving DecidableEq

/-- `Attachment` from types.ts. -/
structure Attachment where
  dataUrl : List Char
  name : List Char
  type : List Char
deriving DecidableEq

/-- `Folder` from types.ts together with the `content` field of
`ProcessedFolder` (ChatInput.tsx). -/
structure Folder where
  name : List Char
  fileCount : ℕ
  content : List Char
deriving DecidableEq

/-- `ChatMessage` from types.ts. -/
structure ChatMsg where
  role : MessageRole
  content : List Char
  attachment : Option Attachment := none
  folder : Option Folder := none
deriving DecidableEq

/-- A model message carrying the given accumulated content. -/
def modelMsg (content : List Char) : ChatMsg := ⟨MessageRole.model, content, none, none⟩

/-- `newMessages[newMessages.length - 1] = m` on a copy of the list: replace
the trailing element (on the empty list the JS index write is a no-op). -/
def replaceLast (msgs : List ChatMsg) (m : ChatMsg) : List ChatMsg :=
  if msgs.isEmpty then msgs else msgs.dropLast ++ [m]

/-- The `for await (const chunk of stream)` loop: accumulate each delta into
`modelResponse` and replace the trailing message with the accumulation. -/
def consumeDeltas (msgs : List ChatMsg) (acc : List Char) : List (List Char) → List ChatMsg
  | [] => msgs
  | d :: ds => consumeDeltas (replaceLast msgs (modelMsg (acc ++ d))) (acc ++ d) ds

/-- The streaming phase of `handleSendMessage`: append the empty placeholder
model message, then consume the deltas in arrival order. -/
def streamReply (msgs : List ChatMsg) (deltas : List (List Char)) : List ChatMsg :=
  consumeDeltas (msgs ++ [modelMsg []]) [] deltas

theorem consumeDeltas_invariant (ds : List (List Char)) :
    ∀ (msgs : List ChatMsg) (acc : List Char), msgs ≠ [] →
      msgs.getLast? = some (modelMsg acc) →
      (consumeDeltas msgs acc ds).getLast? = some (modelMsg (acc ++ ds.flatten)) ∧
      (consumeDeltas msgs acc ds).length = msgs.length := by
  induction ds with
  | nil =>
    intro msgs acc hne hlast
    simpa [consumeDeltas] using hlast
  | cons d ds ih =>
    intro msgs acc hne hlast
    rw [consumeDeltas]
    have hrepl : replaceLast msgs (modelMsg (acc ++ d)) = msgs.dropLast ++ [modelMsg (acc ++ d)] := by
      unfold replaceLast
      rw [if_neg (by simpa [List.isEmpty_iff] using hne)]
    have hne' : replaceLast msgs (modelMsg (acc ++ d)) ≠ [] := by
      rw [hrepl]
      simp
    have hlast' : (replaceLast msgs (modelMsg (acc ++ d))).getLast? = some (modelMsg (acc ++ d)) := by
      rw [hrepl]
      exact List.getLast?_concat _
    have hlen' : (replaceLast msgs (modelMsg (acc ++ d))).length = msgs.length := by
      rw [hrepl]
      have h1 := List.length_dropLast msgs
      have h2 : msgs.length ≠ 0 := by
        intro h0
        exact hne (List.eq_nil_of_length_eq_zero h0)
      simp [h1]
      omega
    obtain ⟨hl, hn⟩ := ih _ (acc ++ d) hne' hlast'
    refine ⟨?_, by rw [hn, hlen']⟩
    rw [hl]
    simp [List.append_assoc]

/-- C2: after the reconciler consumes the first `k` transport deltas, the
trailing model message's content is exactly the concatenation of those `k`
deltas, and the history's length never changes during streaming (each delta
replaces the trailing entry in place); in particular, for the delta sequence
`"Hel"`, `"lo, "`, `"world"` the trailing content after each step is
`"Hel"`, `"Hello, "`, `"Hello, world"`. -/
theorem reconciler_streaming (init : List ChatMsg) (deltas : List (List Char)) (k : ℕ) :
    (streamReply init (deltas.take k)).getLast? = some (modelMsg (deltas.take k).flatten) ∧
    (streamReply init (deltas.take k)).length = init.length + 1 ∧
    (∀ j : ℕ,
      (streamReply init ((["Hel".toList, "lo, ".toList, "world".toList].take j))).getLast? =
        some (modelMsg (["Hel".toList, "lo, ".toList, "world".toList].take j).flatten)) ∧
    ("Hel".toList ++ "lo, ".toList = "Hello, ".toList ∧
     "Hel".toList ++ "lo, ".toList ++ "world".toList = "Hello, world".toList) := by
  have main : ∀ (ds : List (List Char)),
      (streamReply init ds).getLast? = some (modelMsg ds.flatten) ∧
      (streamReply init ds).length = init.length + 1 := by
    intro ds
    have h := consumeDeltas_invariant ds (init ++ [modelMsg []]) []
      (by simp) (List.getLast?_concat _)
    simpa [streamReply] using h
  refine ⟨(main _).1, (main _).2, fun j => (main _).1, by decide, by decide⟩

/-! ### Viewport controller (`DiagramModal`, ChatMessage.tsx lines 55-180)

The transform state `{ scale, x, y }`, the wheel zoom handler, and the
leading-edge `throttle` wrapper.  Numeric values are modelled in `ℚ`;
`Math.max` / `Math.min` are the JS two-argument primitives. -/

/-- JS `Math.max` on two numbers. -/
def jsMax (a b : ℚ) : ℚ := if b ≤ a then a else b

/-- JS `Math.min` on two numbers. -/
def jsMin (a b : ℚ) : ℚ := if a ≤ b then a else b

/-- `transformRef.current`. -/
structure Transform where
  scale : ℚ
  x : ℚ
  y : ℚ
deriving DecidableEq

/-- The identity transform set on open and by `resetTransform`. -/
def identityTransform : Transform := ⟨1, 0, 0⟩

/-- One wheel event: its zoom direction (`e.deltaY < 0`) and the cursor
position relative to the viewport (`e.clientX - rect.left` etc.). -/
structure WheelInput where
  deltaYNeg : Bool
  mouseX : ℚ
  mouseY : ℚ
deriving DecidableEq

/-- `Math.min(Math.max(0.2, newScale), 10)`. -/
def clampScale (sc : ℚ) : ℚ := jsMin (jsMax (1/5) sc) 10

/-- `handleWheel`: multiply or divide the scale by 1.1 according to the
wheel direction, clamp to [0.2, 10], return unchanged if the clamped scale
equals the current one, and otherwise shift the translate by
`(mouse - translate) * (1 - clampedScale / oldScale)` before applying the
new scale. -/
def handleWheel (t : Transform) (e : WheelInput) : Transform :=
  let oldScale := t.scale
  let newScale := if e.deltaYNeg then oldScale * (11/10) else oldScale / (11/10)
  let clampedScale := clampScale newScale
  if clampedScale = oldScale then t
  else
    let dx := (e.mouseX - t.x) * (1 - clampedScale / oldScale)
    let dy := (e.mouseY - t.y) * (1 - clampedScale / oldScale)
    { scale := clampedScale, x := t.x + dx, y := t.y + dy }

/-- Processing a sequence of wheel events in order. -/
def runWheelSeq (t : Transform) (es : List WheelInput) : Transform :=
  es.foldl handleWheel t

theorem clampScale_bounds (sc : ℚ) : 1/5 ≤ clampScale sc ∧ clampScale sc ≤ 10 := by
  unfold clampScale jsMin jsMax
  split <;> split <;> constructor <;> linarith

theorem clampScale_pos (sc : ℚ) : 0 < clampScale sc := by
  have := (clampScale_bounds sc).1
  linarith

/-- C5: a wheel zoom step is a no-op when the clamped scale equals the
current one; otherwise the translate moves by exactly
`(mouse − translate) × (1 − newScale/oldScale)` in each axis and the scale
becomes the clamped value, so the model-space point under the cursor
(`(mouse − translate) / scale`) is unchanged — exactly, in exact
arithmetic. -/
theorem cursor_anchored_zoom (t : Transform) (e : WheelInput) (hs : 0 < t.scale) :
    (clampScale (if e.deltaYNeg then t.scale * (11/10) else t.scale / (11/10)) = t.scale →
      handleWheel t e = t) ∧
    (clampScale (if e.deltaYNeg then t.scale * (11/10) else t.scale / (11/10)) ≠ t.scale →
      (handleWheel t e).scale =
        clampScale (if e.deltaYNeg then t.scale * (11/10) else t.scale / (11/10)) ∧
      (handleWheel t e).x = t.x + (e.mouseX - t.x) * (1 - (handleWheel t e).scale / t.scale) ∧
      (handleWheel t e).y = t.y + (e.mouseY - t.y) * (1 - (handleWheel t e).scale / t.scale) ∧
      (e.mouseX - (handleWheel t e).x) / (handleWheel t e).scale = (e.mouseX - t.x) / t.scale ∧
      (e.mouseY - (handleWheel t e).y) / (handleWheel t e).scale = (e.mouseY - t.y) / t.scale) := by
  constructor
  · intro hclamp
    unfold handleWheel
    rw [if_pos hclamp]
  · intro hclamp
    have hw : handleWheel t e =
        { scale := clampScale (if e.deltaYNeg then t.scale * (11/10) else t.scale / (11/10)),
          x := t.x + (e.mouseX - t.x) *
            (1 - clampScale (if e.deltaYNeg then t.scale * (11/10) else t.scale / (11/10)) / t.scale),
          y := t.y + (e.mouseY - t.y) *
            (1 - clampScale (if e.deltaYNeg then t.scale * (11/10) else t.scale / (11/10)) / t.scale) } := by
      unfold handleWheel
      rw [if_neg hclamp]
    set c := clampScale (if e.deltaYNeg then t.scale * (11/10) else t.scale / (11/10)) with hc
    have hcpos : 0 < c := clampScale_pos _
    have hsne : t.scale ≠ 0 := ne_of_gt hs
    have hcne : c ≠ 0 := ne_of_gt hcpos
    rw [hw]
    refine ⟨rfl, rfl, rfl, ?_, ?_⟩
    · show (e.mouseX - (t.x + (e.mouseX - t.x) * (1 - c / t.scale))) / c = (e.mouseX - t.x) / t.scale
      field_simp
      ring
    · show (e.mouseY - (t.y + (e.mouseY - t.y) * (1 - c / t.scale))) / c = (e.mouseY - t.y) / t.scale
      field_simp
      ring

/-- Witness for `cursor_anchored_zoom` at scale 1 with the cursor at
(40, 30): zooming in moves the transform as the formula dictates. -/
theorem cursor_anchored_zoom_witness :
    (clampScale (if (true : Bool) then (1 : ℚ) * (11/10) else (1 : ℚ) / (11/10)) =
        (identityTransform).scale →
      handleWheel identityTransform ⟨true, 40, 30⟩ = identityTransform) ∧
    (clampScale (if (true : Bool) then (1 : ℚ) * (11/10) else (1 : ℚ) / (11/10)) ≠
        (identityTransform).scale →
      (handleWheel identityTransform ⟨true, 40, 30⟩).scale =
        clampScale (if (true : Bool) then (1 : ℚ) * (11/10) else (1 : ℚ) / (11/10)) ∧
      (handleWheel identityTransform ⟨true, 40, 30⟩).x =
        (identityTransform).x + ((40 : ℚ) - (identityTransform).x) *
          (1 - (handleWheel identityTransform ⟨true, 40, 30⟩).scale / (identityTransform).scale) ∧
      (handleWheel identityTransform ⟨true, 40, 30⟩).y =
        (identityTransform).y + ((30 : ℚ) - (identityTransform).y) *
          (1 - (handleWheel identityTransform ⟨true, 40, 30⟩).scale / (identityTransform).scale) ∧
      ((40 : ℚ) - (handleWheel identityTransform ⟨true, 40, 30⟩).x) /
          (handleWheel identityTransform ⟨true, 40, 30⟩).scale =
        ((40 : ℚ) - (identityTransform).x) / (identityTransform).scale ∧
      ((30 : ℚ) - (handleWheel identityTransform ⟨true, 40, 30⟩).y) /
          (handleWheel identityTransform ⟨true, 40, 30⟩).scale =
        ((30 : ℚ) - (identityTransform).y) / (identityTransform).scale) :=
  cursor_anchored_zoom identityTransform ⟨true, 40, 30⟩ (by norm_num [identityTransform])

theorem handleWheel_scale_bounds (t : Transform) (e : WheelInput)
    (h1 : 1/5 ≤ t.scale) (h2 : t.scale ≤ 10) :
    1/5 ≤ (handleWheel t e).scale ∧ (handleWheel t e).scale ≤ 10 := by
  by_cases hc : clampScale (if e.deltaYNeg then t.scale * (11/10) else t.scale / (11/10)) = t.scale
  · have heq : handleWheel t e = t := by
      unfold handleWheel
      rw [if_pos hc]
    rw [heq]
    exact ⟨h1, h2⟩
  · have heq : (handleWheel t e).scale =
        clampScale (if e.deltaYNeg then t.scale * (11/10) else t.scale / (11/10)) := by
      unfold handleWheel
      rw [if_neg hc]
    rw [heq]
    exact clampScale_bounds _

/-- C6: for any starting scale in [0.2, 10] and any finite sequence of wheel
inputs, the scale stays in [0.2, 10]. -/
theorem zoom_scale_invariant (t : Transform) (es : List WheelInput)
    (h1 : 1/5 ≤ t.scale) (h2 : t.scale ≤ 10) :
    1/5 ≤ (runWheelSeq t es).scale ∧ (runWheelSeq t es).scale ≤ 10 := by
  induction es generalizing t with
  | nil => exact ⟨h1, h2⟩
  | cons e es ih =>
    have hstep := handleWheel_scale_bounds t e h1 h2
    simpa [runWheelSeq, List.foldl_cons] using
      ih (handleWheel t e) hstep.1 hstep.2

/-- Witness for `zoom_scale_invariant`: starting at scale 1, three zoom-in
ticks keep the scale inside the bounds. -/
theorem zoom_scale_invariant_witness :
    1/5 ≤ (runWheelSeq identityTransform
        [⟨true, 0, 0⟩, ⟨true, 0, 0⟩, ⟨true, 0, 0⟩]).scale ∧
    (runWheelSeq identityTransform [⟨true, 0, 0⟩, ⟨true, 0, 0⟩, ⟨true, 0, 0⟩]).scale ≤ 10 :=
  zoom_scale_invariant identityTransform _ (by norm_num [identityTransform])
    (by norm_num [identityTransform])

/-! ### Throttled event handling (`throttle`, ChatMessage.tsx lines 84-94)

The `throttle` wrapper fires on the leading edge only: a call while
`inThrottle` is set is discarded, and `inThrottle` clears `limit`
milliseconds after a fired call.  We model a timed event sequence and the
subsequence of events that actually reach the wrapped handler. -/

/-- A wheel event together with its arrival time (milliseconds). -/
structure TimedEvent where
  time : ℕ
  input : WheelInput
deriving DecidableEq

/-- The events the leading-edge throttle lets through: the state is the fire
time of the last passed event (`none` before any call).  An event passes iff
no event has fired yet or at least `limit` ms elapsed since the last fired
one; otherwise it is discarded with no trailing invocation. -/
def throttleKeep (limit : ℕ) : Option ℕ → List TimedEvent → List WheelInput
  | _, [] => []
  | none, e :: es => e.input :: throttleKeep limit (some e.time) es
  | some t0, e :: es =>
    if t0 + limit ≤ e.time then e.input :: throttleKeep limit (some e.time) es
    else throttleKeep limit (some t0) es

/-- The transform displayed after a timed wheel sequence goes through
`throttledWheel = throttle(handleWheel, 16)`. -/
def runThrottledWheel (t : Transform) (es : List TimedEvent) : Transform :=
  runWheelSeq t (throttleKeep 16 none es)

/-- C8 counterexample: two zoom-in wheel ticks 1 ms apart.  The throttled
pipeline drops the second (trailing) event, so the displayed transform
differs from what unthrottled processing of the same sequence displays. -/
theorem throttle_drops_trailing_event :
    runThrottledWheel identityTransform
        [⟨0, ⟨true, 0, 0⟩⟩, ⟨1, ⟨true, 0, 0⟩⟩] ≠
      runWheelSeq identityTransform
        ([⟨0, ⟨true, 0, 0⟩⟩, ⟨1, ⟨true, 0, 0⟩⟩].map TimedEvent.input) := by
  have hkeep : throttleKeep 16 none [⟨0, ⟨true, 0, 0⟩⟩, ⟨1, ⟨true, 0, 0⟩⟩] =
      [⟨true, 0, 0⟩] := by
    rw [throttleKeep, throttleKeep]
    norm_num
    rfl
  unfold runThrottledWheel
  rw [hkeep]
  simp only [List.map_cons, List.map_nil]
  norm_num [runWheelSeq, handleWheel, clampScale, jsMin, jsMax, identityTransform,
    Transform.mk.injEq]

theorem throttleKeep_sublist (limit : ℕ) (st : Option ℕ) (es : List TimedEvent) :
    List.Sublist (throttleKeep limit st es) (es.map TimedEvent.input) := by
  induction es generalizing st with
  | nil =>
    cases st <;> simp [throttleKeep]
  | cons e es ih =>
    cases st with
    | none =>
      rw [throttleKeep]
      exact List.Sublist.cons₂ e.input (ih (some e.time))
    | some t0 =>
      rw [throttleKeep]
      split
      · exact List.Sublist.cons₂ e.input (ih (some e.time))
      · exact List.Sublist.cons e.input (ih (some t0))

/-- C8 as amended: the displayed transform is the one computed from the
subsequence of events the leading-edge throttle retains — a sublist of the
full event sequence that always contains the first event — while events
arriving inside the 16 ms window (possibly including the last one) are
dropped. -/
theorem throttled_transform_from_retained (t : Transform) (es : List TimedEvent) :
    runThrottledWheel t es = runWheelSeq t (throttleKeep 16 none es) ∧
    List.Sublist (throttleKeep 16 none es) (es.map TimedEvent.input) ∧
    (throttleKeep 16 none es).head? = (es.map TimedEvent.input).head? := by
  refine ⟨rfl, throttleKeep_sublist 16 none es, ?_⟩
  cases es with
  | nil => rfl
  | cons e es => rw [throttleKeep]; rfl

/-! ### Scroll intent and autoscroll (`ChatHistory`, ChatHistory.tsx)

State: the `shouldAutoScroll` ref and the `showScrollButton` state.
`handleScroll` recomputes both from the container geometry; appending a user
message unconditionally sets the flag and scrolls to the bottom; a streaming
model update scrolls only when the flag is set.  A scroll-to-bottom
(`scrollIntoView`) lands the container at bottom geometry, which fires the
container's `onScroll` handler; that induced handler run is modelled as
part of the scrolling step. -/

/-- The scroll-policy state of `ChatHistory`. -/
structure ScrollView where
  shouldAutoScroll : Bool
  showScrollButton : Bool
deriving DecidableEq

/-- Initial state: `useRef(true)` and `useState(false)`. -/
def initScrollView : ScrollView := ⟨true, false⟩

/-- `scrollHeight - clientHeight <= scrollTop + 50`. -/
def isAtBottom (scrollHeight clientHeight scrollTop : ℚ) : Bool :=
  decide (scrollHeight - clientHeight ≤ scrollTop + 50)

/-- `handleScroll`: recompute the flag as "within 50 units of the bottom"
and show the button exactly when not at the bottom. -/
def handleScroll (sv : ScrollView) (scrollHeight clientHeight scrollTop : ℚ) : ScrollView :=
  ⟨isAtBottom scrollHeight clientHeight scrollTop,
   !(isAtBottom scrollHeight clientHeight scrollTop)⟩

/-- Effect case 1: the last appended message is a user message — set the
flag, scroll to bottom (returned Bool), and process the scroll event the
landing fires (at-bottom geometry: `scrollTop = scrollHeight -
clientHeight`). -/
def appendUserMessage (sv : ScrollView) (scrollHeight clientHeight : ℚ) : ScrollView × Bool :=
  let afterFlag : ScrollView := { sv with shouldAutoScroll := true }
  (handleScroll afterFlag scrollHeight clientHeight (scrollHeight - clientHeight), true)

/-- Effect case 2: a streaming model update — scroll to bottom only when the
flag is set (again processing the induced at-bottom scroll event). -/
def streamUpdateScroll (sv : ScrollView) (scrollHeight clientHeight : ℚ) : ScrollView × Bool :=
  if sv.shouldAutoScroll then
    (handleScroll sv scrollHeight clientHeight (scrollHeight - clientHeight), true)
  else (sv, false)

/-- States reachable from the initial `ChatHistory` state under manual
scrolls, user-message appends and streaming updates. -/
inductive ReachableScroll : ScrollView → Prop where
  | init : ReachableScroll initScrollView
  | scrollEvt {sv : ScrollView} (sh ch st : ℚ) :
      ReachableScroll sv → ReachableScroll (handleScroll sv sh ch st)
  | userMsg {sv : ScrollView} (sh ch : ℚ) :
      ReachableScroll sv → ReachableScroll (appendUserMessage sv sh ch).1
  | streamUpd {sv : ScrollView} (sh ch : ℚ) :
      ReachableScroll sv → ReachableScroll (streamUpdateScroll sv sh ch).1

theorem isAtBottom_of_bottom (sh ch : ℚ) : isAtBottom sh ch (sh - ch) = true := by
  unfold isAtBottom
  rw [decide_eq_true_eq]
  linarith

theorem scroll_button_invariant (sv : ScrollView) (h : ReachableScroll sv) :
    sv.showScrollButton = !sv.shouldAutoScroll := by
  induction h with
  | init => rfl
  | scrollEvt sh ch st _ _ => rfl
  | userMsg sh ch _ _ => rfl
  | streamUpd sh ch hr ih =>
    rename_i sv'
    unfold streamUpdateScroll
    by_cases hf : sv'.shouldAutoScroll = true
    · rw [if_pos hf]
      rfl
    · rw [if_neg hf]
      exact ih

/-- C7: appending a user message always sets the autoscroll flag and
scrolls to the bottom; every manual scroll event recomputes the flag as
"within 50 units of the bottom"; a streaming update scrolls exactly when
the flag is set; and, in every reachable state, the scroll-to-bottom
affordance shows exactly when the flag is clear. -/
theorem autoscroll_policy (sv : ScrollView) (sh ch st : ℚ) (h : ReachableScroll sv) :
    (appendUserMessage sv sh ch).1.shouldAutoScroll = true ∧
    (appendUserMessage sv sh ch).2 = true ∧
    (handleScroll sv sh ch st).shouldAutoScroll = isAtBottom sh ch st ∧
    (handleScroll sv sh ch st).showScrollButton = !(isAtBottom sh ch st) ∧
    (streamUpdateScroll sv sh ch).2 = sv.shouldAutoScroll ∧
    sv.showScrollButton = !sv.shouldAutoScroll := by
  refine ⟨?_, rfl, rfl, rfl, ?_, scroll_button_invariant sv h⟩
  · show (appendUserMessage sv sh ch).1.shouldAutoScroll = true
    unfold appendUserMessage handleScroll
    exact isAtBottom_of_bottom sh ch
  · unfold streamUpdateScroll
    by_cases hf : sv.shouldAutoScroll = true
    · rw [if_pos hf, hf]
    · rw [if_neg hf]
      simp at hf
      rw [hf]

/-- Witness for `autoscroll_policy` at the initial state after one manual
scroll far from the bottom. -/
theorem autoscroll_policy_witness :
    ((appendUserMessage (handleScroll initScrollView 1000 400 0) 1000 400).1.shouldAutoScroll
        = true ∧
      (appendUserMessage (handleScroll initScrollView 1000 400 0) 1000 400).2 = true ∧
      (handleScroll (handleScroll initScrollView 1000 400 0) 1000 400 100).shouldAutoScroll
        = isAtBottom 1000 400 100 ∧
      (handleScroll (handleScroll initScrollView 1000 400 0) 1000 400 100).showScrollButton
        = !(isAtBottom 1000 400 100) ∧
      (streamUpdateScroll (handleScroll initScrollView 1000 400 0) 1000 400).2
        = (handleScroll initScrollView 1000 400 0).shouldAutoScroll ∧
      (handleScroll initScrollView 1000 400 0).showScrollButton
        = !(handleScroll initScrollView 1000 400 0).shouldAutoScroll) :=
  autoscroll_policy (handleScroll initScrollView 1000 400 0) 1000 400 100
    (ReachableScroll.scrollEvt 1000 400 0 ReachableScroll.init)

/-! ### Attachment decoding and submission (`fileToPart` App.tsx lines 9-21,
`performSubmit` ChatInput.tsx lines 179-185)

`fileToPart` applies `/^data:(.*);base64,(.*)$/` — `.` matches no line
terminator, and the greedy first group makes the split happen at the last
`;base64,` occurrence — and throws `Invalid data URL` when the match fails.
`performSubmit` invokes `onSendMessage(input.trim(), fileData, folderData)`
and then unconditionally clears the composer; the App-side failure is caught
in `handleSendMessage`'s catch block, which appends a synthetic error model
message. -/

/-- A JS regex line terminator (excluded by `.`). -/
def isLineTerm (c : Char) : Bool :=
  c = '\n' || c = '\r' || c = Char.ofNat 0x2028 || c = Char.ofNat 0x2029

/-- The `;base64,` separator of the data-URL regex. -/
def base64Marker : List Char := ";base64,".toList

/-- Split at the last occurrence of `;base64,` (the greedy `(.*)` backtracks
from the right). -/
def splitLastBase64 : List Char → Option (List Char × List Char)
  | [] => none
  | c :: cs =>
    match splitLastBase64 cs with
    | some (p, s) => some (c :: p, s)
    | none =>
      if (c :: cs).take 8 = base64Marker then some ([], (c :: cs).drop 8) else none

/-- An inline-data request part. -/
structure Part where
  data : List Char
  mimeType : List Char
deriving DecidableEq

/-- `fileToPart`: decode a data URL into an inline-data part, or fail
(`throw new Error('Invalid data URL')`) if the regex does not match. -/
def fileToPart (dataUrl : List Char) : Option Part :=
  if dataUrl.take 5 = "data:".toList && dataUrl.all (fun c => !(isLineTerm c)) then
    match splitLastBase64 (dataUrl.drop 5) with
    | some (mimeType, base64Data) => some ⟨base64Data, mimeType⟩
    | none => none
  else none

/-- The composer state owned by `ChatInput`: the textarea value and the
pending attachment / folder. -/
structure ComposerState where
  input : List Char
  fileData : Option Attachment
  folderData : Option Folder
deriving DecidableEq

/-- The application state touched by a submission. -/
structure AppState where
  messages : List ChatMsg
  error : Option (List Char)
  composer : ComposerState
  isLoading : Bool
deriving DecidableEq

/-- The synthetic model reply appended by `handleSendMessage`'s catch
block. -/
def errorReplyText (details : List Char) : List Char :=
  "Sorry, I encountered an error. Please try again. Details: ".toList ++ details

/-- The message of the error thrown by `fileToPart`. -/
def invalidDataUrlText : List Char := "Invalid data URL".toList

/-- Whether re-encoding the prior history (which re-runs `fileToPart` on
every retained attachment; the initial greeting is sliced off) succeeds. -/
def historyAttachmentsOk (msgs : List ChatMsg) : Bool :=
  (msgs.drop 1).all fun m =>
    match m.attachment with
    | some a => (fileToPart a.dataUrl).isSome
    | none => true

/-- `handleSendMessage` (App.tsx): append the user message; then either
stream the reply into a placeholder model message, or, when decoding any
attachment data URL throws, catch the error, record it, and append the
synthetic error model message.  Returns the new message list and the error
banner state. -/
def handleSendMessage (msgs : List ChatMsg) (prompt : List Char)
    (attachment : Option Attachment) (folder : Option Folder)
    (deltas : List (List Char)) : List ChatMsg × Option (List Char) :=
  let withUser := msgs ++ [⟨MessageRole.user, prompt, attachment, folder⟩]
  let decodeOk := historyAttachmentsOk msgs &&
    (match attachment with
     | some a => (fileToPart a.dataUrl).isSome
     | none => true)
  if decodeOk then
    (streamReply withUser deltas, none)
  else
    (withUser ++ [⟨MessageRole.model, errorReplyText invalidDataUrlText, none, none⟩],
     some ("Error: ".toList ++ invalidDataUrlText))

/-- `performSubmit` (ChatInput.tsx) composed with the send handler: when the
composer is non-empty and no request is in flight, submit the trimmed input
with the pending attachment/folder and then clear the composer. -/
def performSubmit (app : AppState) (deltas : List (List Char)) : AppState :=
  let c := app.composer
  if (!(trim c.input).isEmpty || c.fileData.isSome || c.folderData.isSome) && !app.isLoading then
    let sent := handleSendMessage app.messages (trim c.input) c.fileData c.folderData deltas
    { messages := sent.1, error := sent.2, composer := ⟨[], none, none⟩, isLoading := false }
  else app

/-- A concrete malformed attachment: its payload is not a data URL. -/
def badAttachment : Attachment :=
  ⟨"notadataurl".toList, "img.png".toList, "image/png".toList⟩

/-- A concrete pre-submit application state: one greeting message, the text
`hi` pending in the composer together with the malformed attachment. -/
def preSubmitState : AppState :=
  ⟨[⟨MessageRole.model, "hello".toList, none, none⟩], none,
   ⟨"hi".toList, some badAttachment, none⟩, false⟩

/-- C9 counterexample: submitting with an attachment whose data URL fails to
decode does not restore the composer to its pre-submit state — the composer
is cleared (`setInput('')`, `resetAttachments()`) before the failure is even
raised — and a synthetic model message is appended. -/
theorem composer_not_restored :
    (performSubmit preSubmitState ["streamed".toList]).composer ≠ preSubmitState.composer ∧
    (performSubmit preSubmitState ["streamed".toList]).messages.length =
      preSubmitState.messages.length + 2 := by
  constructor
  · decide
  · decide

/-- C9 as amended: a decode failure on the attachment data URL aborts only
that submission's streaming — no transport delta is consumed, the transcript
gains exactly the user message plus a synthetic error model message carrying
the error detail, the error banner is set — but the composer is cleared at
submit time rather than restored to its pre-submit state. -/
theorem decode_failure_aborts (app : AppState) (deltas : List (List Char)) (a : Attachment)
    (hatt : app.composer.fileData = some a)
    (hbad : fileToPart a.dataUrl = none)
    (hload : app.isLoading = false) :
    (performSubmit app deltas).messages =
      app.messages ++
        [⟨MessageRole.user, trim app.composer.input, some a, app.composer.folderData⟩,
         ⟨MessageRole.model, errorReplyText invalidDataUrlText, none, none⟩] ∧
    (performSubmit app deltas).composer = ⟨[], none, none⟩ ∧
    (performSubmit app deltas).error = some ("Error: ".toList ++ invalidDataUrlText) ∧
    (performSubmit app deltas).isLoading = false := by
  simp only [performSubmit, handleSendMessage]
  rw [hatt, hload]
  simp [hbad]

/-- Witness for `decode_failure_aborts` at the concrete pre-submit state. -/
theorem decode_failure_aborts_witness :
    (performSubmit preSubmitState ["streamed".toList]).messages =
      preSubmitState.messages ++
        [⟨MessageRole.user, trim preSubmitState.composer.input, some badAttachment,
          preSubmitState.composer.folderData⟩,
         ⟨MessageRole.model, errorReplyText invalidDataUrlText, none, none⟩] ∧
    (performSubmit preSubmitState ["streamed".toList]).composer = ⟨[], none, none⟩ ∧
    (performSubmit preSubmitState ["streamed".toList]).error =
      some ("Error: ".toList ++ invalidDataUrlText) ∧
    (performSubmit preSubmitState ["streamed".toList]).isLoading = false :=
  decode_failure_aborts preSubmitState ["streamed".toList] badAttachment
    (by decide) (by decide) (by decide)

/-! ### Diagram render outcome (`MermaidDiagram`, ChatMessage.tsx lines
238-305)

On a compile failure the component stores an inline error panel built by
template-string interpolation of the engine's error message — no sanitizer
runs on it.  `isRenderSuccess` tests `svg.trim().startsWith('<svg')`, and
the download/expand toolbar actions render only when it holds. -/

/-- The literal HTML before the interpolated error message. -/
def errorPanelHead : List Char :=
  ("<div class=\"p-4 text-red-500 bg-red-100 rounded-md\"><strong>Diagram Error:" ++
   "</strong><br/><pre class=\"whitespace-pre-wrap text-xs\">").toList

/-- The literal HTML after the interpolated error message. -/
def errorPanelTail : List Char := "</pre></div>".toList

/-- The inline error panel: the error message text is interpolated verbatim
between the two literals. -/
def errorPanelMarkup (errorMessage : List Char) : List Char :=
  errorPanelHead ++ errorMessage ++ errorPanelTail

/-- The markup stored in the `svg` state for a settled render: the engine's
vector markup on success, the inline error panel on failure. -/
def renderOutcomeMarkup : Except (List Char) (List Char) → List Char
  | .ok svgMarkup => svgMarkup
  | .error errorMessage => errorPanelMarkup errorMessage

/-- `svg.trim().startsWith('<svg')`; the download and expand actions are
rendered exactly when this holds. -/
def isRenderSuccess (svg : List Char) : Bool := (trim svg).take 4 = "<svg".toList

theorem trim_eq_self (cs : List Char)
    (h1 : ∀ c, cs.head? = some c → isWs c = false)
    (h2 : ∀ c, cs.getLast? = some c → isWs c = false) :
    trim cs = cs := by
  rcases cs with _ | ⟨c, cs'⟩
  · rfl
  · unfold trim
    have hd : (c :: cs').dropWhile isWs = c :: cs' := by
      rw [List.dropWhile_cons]
      rw [h1 c rfl]
      simp
    rw [hd]
    rcases hrev : (c :: cs').reverse with _ | ⟨d, ds⟩
    · exact absurd (congrArg List.length hrev) (by simp)
    · have hdlast : (c :: cs').getLast? = some d := by
        rw [← List.head?_reverse, hrev]
        rfl
      rw [List.dropWhile_cons]
      rw [h2 d hdlast]
      simp only [Bool.false_eq_true, if_false]
      rw [← hrev, List.reverse_reverse]

set_option maxRecDepth 4096 in
/-- C10: for every diagram compilation failure, the stored markup is the
inline error panel with the engine's message interpolated verbatim (no
sanitizer applied), this markup does not start with `<svg`, so
`isRenderSuccess` is false and the download/expand actions are not
offered. -/
theorem diagram_error_markup (errorMessage : List Char) :
    renderOutcomeMarkup (Except.error errorMessage) =
      errorPanelHead ++ errorMessage ++ errorPanelTail ∧
    isRenderSuccess (renderOutcomeMarkup (Except.error errorMessage)) = false := by
  refine ⟨rfl, ?_⟩
  show isRenderSuccess (errorPanelMarkup errorMessage) = false
  have hhead : errorPanelHead = '<' :: errorPanelHead.tail := rfl
  have htrim : trim (errorPanelMarkup errorMessage) = errorPanelMarkup errorMessage := by
    apply trim_eq_self
    · intro c hc
      unfold errorPanelMarkup at hc
      rw [hhead] at hc
      simp only [List.cons_append, List.head?_cons, Option.some_inj] at hc
      rw [← hc]
      decide
    · intro c hc
      unfold errorPanelMarkup at hc
      have htail : (errorPanelHead ++ errorMessage ++ errorPanelTail).getLast? =
          errorPanelTail.getLast? :=
        List.getLast?_append_of_ne_nil _ (by decide)
      rw [htail] at hc
      have : errorPanelTail.getLast? = some '>' := by decide
      rw [this] at hc
      rw [← Option.some_inj.mp hc]
      decide
  unfold isRenderSuccess
  rw [htrim]
  unfold errorPanelMarkup
  have h4 : (4 : ℕ) ≤ errorPanelHead.length := by decide
  rw [List.append_assoc, List.take_append_of_le_length h4]
  decide

/-! ### Prose rendering (`FormattedContent` prose branch, ChatMessage.tsx
lines 444-453)

The prose branch computes `DOMPurify.sanitize(marked.parse(part.trim()))`
and injects only the sanitized markup.  `marked` and `DOMPurify` are
external collaborators; the markdown converter is therefore an arbitrary
function parameter, and the sanitizer is modelled from the spec. -/

mutual

/-- Structured markup: a text node or an element with a tag, attributes and
children. -/
inductive Html where
  | text : List Char → Html
  | elem : (tag : List Char) → (attrs : List (List Char × List Char)) →
      (children : HtmlStream) → Html

/-- A sequence of sibling markup nodes. -/
inductive HtmlStream where
  | nil : HtmlStream
  | cons : Html → HtmlStream → HtmlStream

end

/-- Concatenation of sibling sequences. -/
def HtmlStream.append : HtmlStream → HtmlStream → HtmlStream
  | .nil, ys => ys
  | .cons x xs, ys => .cons x (xs.append ys)

/-- Modelled from the spec: the allow-list of structural/inline tags the
sanitizer may let through ("headings, lists, emphasis, links, tables"); it
contains no script or style element. -/
def allowedTags : List (List Char) :=
  ["p".toList, "br".toList, "h1".toList, "h2".toList, "h3".toList, "h4".toList,
   "ul".toList, "ol".toList, "li".toList, "em".toList, "strong".toList, "a".toList,
   "code".toList, "pre".toList, "table".toList, "thead".toList, "tbody".toList,
   "tr".toList, "th".toList, "td".toList, "blockquote".toList]

/-- Modelled from the spec: the allow-list of attributes; it contains no
event-handler attribute and no style attribute. -/
def allowedAttrs : List (List Char) :=
  ["href".toList, "title".toList, "alt".toList, "src".toList]

/-- Tags whose whole subtree is removed by the sanitizer. -/
def droppedWithContents : List (List Char) := ["script".toList, "style".toList]

/-- An inline event-handler attribute name (`on...`). -/
def isEventHandlerAttr (name : List Char) : Bool := name.take 2 = "on".toList

mutual

/-- Modelled from the spec: the allow-list sanitizer (DOMPurify).  An
element with an allowed tag is kept with only its allowed attributes and
its sanitized children; a script/style element is removed together with its
contents; any other disallowed element is unwrapped, keeping its sanitized
children; text is kept. -/
def sanitizeHtml : Html → HtmlStream
  | .text t => .cons (.text t) .nil
  | .elem tag attrs children =>
    if tag ∈ allowedTags then
      .cons (.elem tag (attrs.filter fun at0 => decide (at0.1 ∈ allowedAttrs))
        (sanitizeStream children)) .nil
    else if tag ∈ droppedWithContents then .nil
    else sanitizeStream children

/-- The sanitizer applied to a sequence of siblings. -/
def sanitizeStream : HtmlStream → HtmlStream
  | .nil => .nil
  | .cons h t => (sanitizeHtml h).append (sanitizeStream t)

end

mutual

/-- No active content in a node: not a script/style element, no
event-handler attribute, no style attribute, and the same below. -/
def activeFree : Html → Bool
  | .text _ => true
  | .elem tag attrs children =>
    decide (¬ tag ∈ droppedWithContents) &&
    attrs.all (fun at0 => !(isEventHandlerAttr at0.1) && !(at0.1 = "style".toList)) &&
    activeFreeStream children

/-- No active content anywhere in a sibling sequence. -/
def activeFreeStream : HtmlStream → Bool
  | .nil => true
  | .cons h t => activeFree h && activeFreeStream t

end

/-- The prose branch of `FormattedContent`: convert the trimmed part with
the (external, arbitrary) markdown converter, then sanitize. -/
def renderProse (markdownConvert : List Char → Html) (partText : List Char) : HtmlStream :=
  sanitizeHtml (markdownConvert (trim partText))

theorem activeFreeStream_append (a b : HtmlStream) :
    activeFreeStream (a.append b) = (activeFreeStream a && activeFreeStream b) := by
  cases a with
  | nil => simp [HtmlStream.append, activeFreeStream]
  | cons h t =>
    have hstep : (HtmlStream.cons h t).append b = HtmlStream.cons h (t.append b) := rfl
    rw [hstep]
    simp only [activeFreeStream]
    rw [activeFreeStream_append t b, Bool.and_assoc]

theorem allowed_attrs_inactive (name : List Char) (h : name ∈ allowedAttrs) :
    (!(isEventHandlerAttr name) && !(name = "style".toList)) = true := by
  fin_cases h <;> decide

theorem allowed_tags_not_dropped (tag : List Char) (h : tag ∈ allowedTags) :
    decide (¬ tag ∈ droppedWithContents) = true := by
  fin_cases h <;> decide

theorem filter_attrs_all (attrs : List (List Char × List Char)) :
    (attrs.filter fun at0 => decide (at0.1 ∈ allowedAttrs)).all
      (fun at0 => !(isEventHandlerAttr at0.1) && !(at0.1 = "style".toList)) = true := by
  rw [List.all_eq_true]
  intro at0 hmem
  have := List.of_mem_filter hmem
  exact allowed_attrs_inactive at0.1 (by simpa using this)

mutual

theorem sanitizeHtml_activeFree (h : Html) : activeFreeStream (sanitizeHtml h) = true := by
  cases h with
  | text t => rfl
  | elem tag attrs children =>
    rw [sanitizeHtml]
    by_cases ht : tag ∈ allowedTags
    · rw [if_pos ht]
      show (activeFree _ && activeFreeStream HtmlStream.nil) = true
      rw [activeFree]
      simp only [activeFreeStream, Bool.and_true]
      rw [allowed_tags_not_dropped tag ht, filter_attrs_all attrs,
        sanitizeStream_activeFree children]
      rfl
    · rw [if_neg ht]
      by_cases hd : tag ∈ droppedWithContents
      · rw [if_pos hd]
        rfl
      · rw [if_neg hd]
        exact sanitizeStream_activeFree children

theorem sanitizeStream_activeFree (l : HtmlStream) :
    activeFreeStream (sanitizeStream l) = true := by
  cases l with
  | nil => rfl
  | cons h t =>
    rw [sanitizeStream, activeFreeStream_append, sanitizeHtml_activeFree h,
      sanitizeStream_activeFree t]
    rfl

end

/-- C4: the markup rendered for a Prose segment is exactly the sanitizer
applied to the markdown conversion of the trimmed segment text, and —
whatever markup the converter produces — the result contains no active
content: no script/style element, no inline event-handler attribute, no
style attribute. -/
theorem prose_markup_sanitized (markdownConvert : List Char → Html) (partText : List Char) :
    renderProse markdownConvert partText =
      sanitizeHtml (markdownConvert (trim partText)) ∧
    activeFreeStream (renderProse markdownConvert partText) = true :=
  ⟨rfl, sanitizeHtml_activeFree _⟩

end AIMentor
